import Mathlib

set_option maxHeartbeats 1000000
set_option maxRecDepth 8192

/-!
Shallow embedding of `src/ui/tracer/ninja.go` (`ImportNinjaLog` and its
helpers) from the Ninja-OS/build_soong repository, together with proofs of
the specification claims about it.

Modelling conventions:
* Go `int` values are `Int` (Atoi only ever produces values in int64 range;
  where int64 wraparound can matter — the `end-begin` subtraction — the wrap
  is modelled explicitly by `int64Sub`).
* Go `uint64` arithmetic is `Nat` arithmetic taken `% 2^64` at each operation.
* File-system effects (`os.Stat`, `os.Open`) are passed in as parameters
  describing their outcomes; the file contents are a `String`, split into
  lines by a model of `bufio.ScanLines`.
* A Go runtime panic (out-of-range slice index) is modelled as an explicit
  `panicRes` outcome, distinct from the normal early returns.
* Logged diagnostics are collected in the result as a list of `LogMsg`.
-/

namespace NinjaImport

/-- 2^64, the modulus of Go `uint64` arithmetic. -/
def U64 : Nat := 2 ^ 64

/-- Go conversion `uint64(x)` of a Go integer value `x` (two's complement). -/
def toU64 (x : Int) : Nat := (x % (2 ^ 64 : Int)).toNat

/-- Go `int64` subtraction `a - b` with two's-complement wraparound. -/
def int64Sub (a b : Int) : Int := (a - b + 2 ^ 63) % 2 ^ 64 - 2 ^ 63

/-- `ninjaLogEntry` from ninja.go: one parsed data line. -/
structure NinjaLogEntry where
  Name : String
  Begin : Int
  End : Int
deriving DecidableEq

/-- `viewerEvent` (the fields `ImportNinjaLog` writes): one emitted trace event. -/
structure ViewerEvent where
  Name : String
  Phase : String
  Time : Nat
  Dur : Nat
  Pid : Nat
  Tid : Nat
deriving DecidableEq

/-- Decimal value of one ASCII digit, as accepted by Go `strconv.Atoi`. -/
def charDigitVal (c : Char) : Option Nat :=
  if '0' ≤ c ∧ c ≤ '9' then some (c.toNat - '0'.toNat) else none

/-- Value of a digit string; `none` if any character is not an ASCII digit. -/
def digitsVal (cs : List Char) : Option Nat :=
  cs.foldl
    (fun acc c =>
      match acc, charDigitVal c with
      | some n, some d => some (n * 10 + d)
      | _, _ => none)
    (some 0)

/-- Go `strconv.Atoi` (= `ParseInt(s, 10, 0)` on a 64-bit platform), on the
character data of the string: optional sign, then one or more ASCII digits,
value within `int64` range; any error (empty, stray characters, out of
range) is `none`. -/
def goAtoi (s : List Char) : Option Int :=
  match s with
  | [] => none
  | c :: cs =>
    let neg : Bool := c = '-'
    let ds : List Char := if c = '-' ∨ c = '+' then cs else c :: cs
    if ds.isEmpty then none
    else
      match digitsVal ds with
      | none => none
      | some n =>
        if neg then
          if n ≤ 2 ^ 63 then some (-(n : Int)) else none
        else
          if n < 2 ^ 63 then some (n : Int) else none

/-- Go `strings.Split(s, sep)` for a one-character separator, on character
data: the (always nonempty) list of chunks of `s` between occurrences of
`sep`. -/
def splitOnChar (sep : Char) : List Char → List (List Char)
  | [] => [[]]
  | c :: rest =>
    if c = sep then [] :: splitOnChar sep rest
    else
      match splitOnChar sep rest with
      | [] => [[c]]
      | g :: gs => (c :: g) :: gs

/-- Outcome of processing one data line of the log. -/
inductive LineResult where
  | panicRes
  | badInt
  | entry (e : NinjaLogEntry)
deriving DecidableEq

/-- The per-data-line part of the scan loop body in `ImportNinjaLog`:
`fields := strings.Split(line, "\t")`, then `strconv.Atoi(fields[0])`
(error → early return, modelled `badInt`), then `fields[1]` (out of range
when fewer than 2 fields → `panicRes`), `strconv.Atoi(fields[1])` (error →
`badInt`), then `fields[3]` for the name (out of range when fewer than 4
fields → `panicRes`). -/
def parseNinjaLine (line : List Char) : LineResult :=
  let fields := splitOnChar '\t' line
  match goAtoi (fields.getD 0 []) with
  | none => .badInt
  | some b =>
    if fields.length < 2 then .panicRes
    else
      match goAtoi (fields.getD 1 []) with
      | none => .badInt
      | some e =>
        if fields.length < 4 then .panicRes
        else .entry ⟨⟨fields.getD 3 []⟩, b, e⟩

/-- The accumulation step of the scan loop: `if end < prevEnd { entries = nil }`,
`prevEnd = end`, then append the entry. -/
def accumStep : List NinjaLogEntry × Int → NinjaLogEntry → List NinjaLogEntry × Int
  | (acc, prevEnd), e => (if e.End < prevEnd then [e] else acc ++ [e], e.End)

/-- Why the scan stage gave up early. -/
inductive Abort where
  | badHeader (hdr : String)
  | badEntry (line : String)
deriving DecidableEq

/-- Result of the scan loop over all lines. -/
inductive ScanResult where
  | panicRes
  | aborted (a : Abort)
  | done (entries : List NinjaLogEntry)
deriving DecidableEq

/-- The scan loop of `ImportNinjaLog` after the header line has been
consumed: state is the accumulated entries and `prevEnd`. -/
def scanLoop : List (List Char) → List NinjaLogEntry × Int → ScanResult
  | [], st => .done st.1
  | l :: rest, st =>
    match parseNinjaLine l with
    | .panicRes => .panicRes
    | .badInt => .aborted (.badEntry ⟨l⟩)
    | .entry e => scanLoop rest (accumStep st e)

/-- The whole scan: the first line (when present) must be the exact version
header, the remaining lines are data lines. An empty file scans to zero
entries without ever checking the header. -/
def scanContent (lines : List (List Char)) : ScanResult :=
  match lines with
  | [] => .done []
  | hdr :: rest =>
    if hdr = "# ninja log v5".data then scanLoop rest ([], 0)
    else .aborted (.badHeader ⟨hdr⟩)

/-- `dropCR` from `bufio.ScanLines`: strip one trailing carriage return. -/
def dropCR (cs : List Char) : List Char :=
  if cs.getLast? = some '\r' then cs.dropLast else cs

/-- `bufio.Scanner` with `ScanLines`: the sequence of lines of the file
contents — split at newlines, final line may be unterminated, a terminating
final newline yields no extra empty line, and a trailing `\r` is stripped
from each line. -/
def goScanLines (content : String) : List (List Char) :=
  match content.data with
  | [] => []
  | c :: cs =>
    let parts := splitOnChar '\n' (c :: cs)
    let parts := if parts.getLast? = some [] then parts.dropLast else parts
    parts.map dropCR

/-- Order used by `sort.Sort(entries)` via `ninjaLogEntries.Less`:
nondecreasing `Begin`. -/
def entryLE (a b : NinjaLogEntry) : Prop := a.Begin ≤ b.Begin

instance : DecidableRel entryLE := fun a b =>
  inferInstanceAs (Decidable (a.Begin ≤ b.Begin))

instance : IsTotal NinjaLogEntry entryLE :=
  ⟨fun a b => Int.le_total a.Begin b.Begin⟩

instance : IsTrans NinjaLogEntry entryLE :=
  ⟨fun _ _ _ => Int.le_trans⟩

/-- `sort.Sort(entries)`: a permutation of the entries that is sorted by
`Begin` (Go's sort algorithm is modelled by insertion sort, which satisfies
the same contract: sorted output, some permutation of the input). -/
def sortEntries (es : List NinjaLogEntry) : List NinjaLogEntry :=
  List.insertionSort entryLE es

/-- The inner `for cpu, endTime := range cpus` scan: index of the first lane
whose recorded end time is `≤ b`, if any. -/
def findFreeLane : List Int → Int → Option Nat
  | [], _ => none
  | c :: rest, b => if c ≤ b then some 0 else (findFreeLane rest b).map Nat.succ

/-- One scheduling step for an interval `[b, e)`: reuse the first free lane
(updating its recorded end to `e`), else allocate a new lane. Returns the
chosen lane id and the updated lane ends. -/
def assignLane (cpus : List Int) (b e : Int) : Nat × List Int :=
  match findFreeLane cpus b with
  | some i => (i, cpus.set i e)
  | none => (cpus.length, cpus ++ [e])

/-- The lane ids the emit loop pairs with each entry, in processing order. -/
def laneAssign : List NinjaLogEntry → List Int → List (Nat × NinjaLogEntry)
  | [], _ => []
  | e :: rest, cpus =>
    let st := assignLane cpus e.Begin e.End
    (st.1, e) :: laneAssign rest st.2

/-- The `viewerEvent` written for one entry on lane `tid`:
`Time = offset + uint64(Begin)*1000`, `Dur = uint64(End-Begin)*1000`
(both in `uint64` arithmetic), `Pid = 1`, `Phase = "X"`. -/
def mkEvent (offset : Nat) (tid : Nat) (e : NinjaLogEntry) : ViewerEvent :=
  { Name := e.Name
    Phase := "X"
    Time := (offset % U64 + toU64 e.Begin * 1000 % U64) % U64
    Dur := toU64 (int64Sub e.End e.Begin) * 1000 % U64
    Pid := 1
    Tid := tid }

/-- The emit loop of `ImportNinjaLog`: schedule each entry and write its
event, threading the lane state. -/
def emitLoop (offset : Nat) : List NinjaLogEntry → List Int → List ViewerEvent
  | [], _ => []
  | e :: rest, cpus =>
    let st := assignLane cpus e.Begin e.End
    mkEvent offset st.1 e :: emitLoop offset rest st.2

/-- The diagnostics `ImportNinjaLog` can log. -/
inductive LogMsg where
  | missingLog
  | notModified
  | openError
  | unknownHeader (hdr : String)
  | unableToParse (line : String)
deriving DecidableEq

/-- Observable outcome of one import call: the per-task events written, the
diagnostics logged, and whether the call panicked instead of returning. -/
structure ImportResult where
  events : List ViewerEvent
  logs : List LogMsg
  panicked : Bool
deriving DecidableEq

/-- The part of `ImportNinjaLog` from the scan loop on, given the already
computed `offset = uint64(startOffset.UnixNano()) / 1000` and the scanned
lines. -/
def importScanned (offset : Nat) (lines : List (List Char)) : ImportResult :=
  match scanContent lines with
  | .panicRes => ⟨[], [], true⟩
  | .aborted (.badHeader h) => ⟨[], [.unknownHeader h], false⟩
  | .aborted (.badEntry l) => ⟨[], [.unableToParse l], false⟩
  | .done entries => ⟨emitLoop offset (sortEntries entries) [], [], false⟩

/-- `ImportNinjaLog`.  `statModTimeNs` is `none` when `os.Stat` fails, else
the file's modification time in nanoseconds; `openOk` is whether `os.Open`
succeeds; `content` the file contents; `startOffsetNs` the `startOffset`
argument as nanoseconds since the Unix epoch. -/
def importNinjaLog (statModTimeNs : Option Int) (openOk : Bool)
    (content : String) (startOffsetNs : Int) : ImportResult :=
  match statModTimeNs with
  | none => ⟨[], [.missingLog], false⟩
  | some mt =>
    if mt < startOffsetNs then ⟨[], [.notModified], false⟩
    else if openOk = false then ⟨[], [.openError], false⟩
    else importScanned (toU64 startOffsetNs / 1000) (goScanLines content)

/-! ### Helper lemmas: list indexing with a default -/

theorem getD_set_self (l : List Int) (i : Nat) (e : Int) (h : i < l.length) :
    (l.set i e).getD i 0 = e := by
  induction l generalizing i with
  | nil => simp at h
  | cons c rest ih =>
    cases i with
    | zero => rfl
    | succ j => exact ih j (by simpa using h)

theorem getD_set_ne (l : List Int) (i j : Nat) (e : Int) (hne : i ≠ j) :
    (l.set i e).getD j 0 = l.getD j 0 := by
  induction l generalizing i j with
  | nil => rfl
  | cons c rest ih =>
    cases i with
    | zero =>
      cases j with
      | zero => exact absurd rfl hne
      | succ j2 => rfl
    | succ i2 =>
      cases j with
      | zero => rfl
      | succ j2 => exact ih i2 j2 (fun h => hne (by rw [h]))

theorem getD_append_left (l : List Int) (x : Int) (j : Nat) (h : j < l.length) :
    (l ++ [x]).getD j 0 = l.getD j 0 := by
  induction l generalizing j with
  | nil => simp at h
  | cons c rest ih =>
    cases j with
    | zero => rfl
    | succ j2 => exact ih j2 (by simpa using h)

theorem getD_append_last (l : List Int) (x : Int) :
    (l ++ [x]).getD l.length 0 = x := by
  induction l with
  | nil => rfl
  | cons c rest ih => simp [ih]

/-! ### Lemmas about the lane scheduler -/

theorem findFreeLane_some (b : Int) (cpus : List Int) (i : Nat)
    (hfind : findFreeLane cpus b = some i) :
    i < cpus.length ∧ cpus.getD i 0 ≤ b ∧ ∀ j, j < i → b < cpus.getD j 0 := by
  induction cpus generalizing i with
  | nil => simp [findFreeLane] at hfind
  | cons c rest ih =>
    by_cases hc : c ≤ b
    · simp [findFreeLane, hc] at hfind
      subst hfind
      exact ⟨Nat.succ_pos _, hc, fun j hj => absurd hj (Nat.not_lt_zero j)⟩
    · simp [findFreeLane, hc] at hfind
      obtain ⟨i2, hi2, rfl⟩ := hfind
      obtain ⟨h1, h2, h3⟩ := ih i2 hi2
      refine ⟨Nat.succ_lt_succ h1, h2, ?_⟩
      intro j hj
      cases j with
      | zero => simpa using lt_of_not_le hc
      | succ j2 => exact h3 j2 (Nat.lt_of_succ_lt_succ hj)

theorem findFreeLane_none (b : Int) (cpus : List Int)
    (hfind : findFreeLane cpus b = none) :
    ∀ j, j < cpus.length → b < cpus.getD j 0 := by
  induction cpus with
  | nil => intro j hj; simp at hj
  | cons c rest ih =>
    by_cases hc : c ≤ b
    · simp [findFreeLane, hc] at hfind
    · simp [findFreeLane, hc] at hfind
      intro j hj
      cases j with
      | zero => simpa using lt_of_not_le hc
      | succ j2 => exact ih hfind j2 (by simpa using hj)

theorem findFreeLane_some_of (b : Int) (cpus : List Int) (i : Nat)
    (hi : i < cpus.length) (hle : cpus.getD i 0 ≤ b)
    (hmin : ∀ j, j < i → b < cpus.getD j 0) :
    findFreeLane cpus b = some i := by
  induction cpus generalizing i with
  | nil => simp at hi
  | cons c rest ih =>
    cases i with
    | zero => simpa [findFreeLane] using hle
    | succ i2 =>
      have hc : b < c := hmin 0 (Nat.succ_pos _)
      simp only [findFreeLane, if_neg (not_le.mpr hc)]
      rw [ih i2 (by simpa using hi) hle
        (fun j hj => hmin (j + 1) (Nat.succ_lt_succ hj))]
      rfl

theorem findFreeLane_none_of (b : Int) (cpus : List Int)
    (hbusy : ∀ j, j < cpus.length → b < cpus.getD j 0) :
    findFreeLane cpus b = none := by
  induction cpus with
  | nil => rfl
  | cons c rest ih =>
    have hc : b < c := hbusy 0 (Nat.succ_pos _)
    simp only [findFreeLane, if_neg (not_le.mpr hc)]
    rw [ih (fun j hj => hbusy (j + 1) (Nat.succ_lt_succ hj))]
    rfl

/-- Bundled facts about one scheduling step `assignLane cpus b e = (t, q)`:
the lane list never shrinks, the chosen lane exists in the updated state and
records `e`, all other lanes are untouched, and a reused (pre-existing) lane
was free (recorded end `≤ b`). -/
theorem assignLane_state (cpus : List Int) (b e : Int) (t : Nat) (q : List Int)
    (hst : assignLane cpus b e = (t, q)) :
    cpus.length ≤ q.length ∧ t < q.length ∧ q.getD t 0 = e ∧
    (∀ j, j < cpus.length → j ≠ t → q.getD j 0 = cpus.getD j 0) ∧
    (t < cpus.length → cpus.getD t 0 ≤ b) := by
  rcases hf : findFreeLane cpus b with _ | i
  · rw [assignLane, hf] at hst
    obtain ⟨rfl, rfl⟩ : cpus.length = t ∧ cpus ++ [e] = q := by
      constructor <;> [exact congrArg Prod.fst hst; exact congrArg Prod.snd hst]
    refine ⟨by simp, by simp, getD_append_last cpus e, ?_, ?_⟩
    · intro j hj _
      exact getD_append_left cpus e j hj
    · intro h
      exact absurd h (lt_irrefl _)
  · rw [assignLane, hf] at hst
    obtain ⟨rfl, rfl⟩ : i = t ∧ cpus.set i e = q := by
      constructor <;> [exact congrArg Prod.fst hst; exact congrArg Prod.snd hst]
    obtain ⟨h1, h2, _⟩ := findFreeLane_some b cpus i hf
    refine ⟨by simp, by simpa using h1, getD_set_self cpus i e h1, ?_, fun _ => h2⟩
    intro j hj hjt
    exact getD_set_ne cpus i j e (fun h => hjt h.symm)

theorem laneAssign_map_snd (es : List NinjaLogEntry) :
    ∀ cpus, (laneAssign es cpus).map Prod.snd = es := by
  induction es with
  | nil => intro cpus; rfl
  | cons e rest ih => intro cpus; simp [laneAssign, ih]

theorem emitLoop_eq_map (offset : Nat) (es : List NinjaLogEntry) :
    ∀ cpus, emitLoop offset es cpus =
      (laneAssign es cpus).map fun p => mkEvent offset p.1 p.2 := by
  induction es with
  | nil => intro cpus; rfl
  | cons e rest ih => intro cpus; simp [emitLoop, laneAssign, ih]

/-- Core scheduling invariant: on a list of entries sorted by `Begin`, any
two assignments to the same lane are chained (the earlier entry's `End` is
`≤` the later entry's `Begin`); moreover every assignment to a pre-existing
lane starts no earlier than that lane's recorded end time. -/
theorem laneAssign_inv (es : List NinjaLogEntry) :
    ∀ cpus : List Int, es.Pairwise (fun a b => a.Begin ≤ b.Begin) →
      (laneAssign es cpus).Pairwise (fun p q => p.1 = q.1 → p.2.End ≤ q.2.Begin) ∧
      ∀ p ∈ laneAssign es cpus, p.1 < cpus.length → cpus.getD p.1 0 ≤ p.2.Begin := by
  induction es with
  | nil =>
    intro cpus _
    exact ⟨List.Pairwise.nil, fun p hp => by simp [laneAssign] at hp⟩
  | cons e rest ih =>
    intro cpus hs
    rw [List.pairwise_cons] at hs
    obtain ⟨hhead, hrest⟩ := hs
    rcases hst : assignLane cpus e.Begin e.End with ⟨t, q⟩
    obtain ⟨hlen, htq, hget, hother, hfree⟩ := assignLane_state cpus e.Begin e.End t q hst
    obtain ⟨tailChain, tailMem⟩ := ih q hrest
    have hunfold : laneAssign (e :: rest) cpus = (t, e) :: laneAssign rest q := by
      simp [laneAssign, hst]
    have hmem_snd : ∀ p ∈ laneAssign rest q, p.2 ∈ rest := by
      intro p hp
      have := laneAssign_map_snd rest q
      rw [← this]
      exact List.mem_map_of_mem Prod.snd hp
    constructor
    · rw [hunfold]
      refine List.Pairwise.cons ?_ tailChain
      intro p hp hEq
      have h1 : p.1 < q.length := by rw [← hEq]; exact htq
      have h2 := tailMem p hp h1
      rw [← hEq] at h2
      rw [hget] at h2
      exact h2
    · rw [hunfold]
      intro p hp hplt
      rcases List.mem_cons.mp hp with rfl | hp2
      · exact hfree hplt
      · have h1 : p.1 < q.length := lt_of_lt_of_le hplt hlen
        have h2 := tailMem p hp2 h1
        by_cases hpt : p.1 = t
        · have h3 : cpus.getD p.1 0 ≤ e.Begin := by rw [hpt]; exact hfree (hpt ▸ hplt)
          have h4 : e.Begin ≤ p.2.Begin := hhead p.2 (hmem_snd p hp2)
          exact le_trans h3 h4
        · rw [hother p.1 hplt hpt] at h2
          exact h2

theorem sortEntries_sorted (es : List NinjaLogEntry) :
    (sortEntries es).Pairwise (fun a b => a.Begin ≤ b.Begin) :=
  List.sorted_insertionSort entryLE es

theorem sortEntries_perm (es : List NinjaLogEntry) :
    (sortEntries es).Perm es :=
  List.perm_insertionSort entryLE es

/-! ### Lemmas about the scan loop and restart detection -/

theorem scanLoop_done_parses (lines : List (List Char)) :
    ∀ st out, scanLoop lines st = .done out →
      ∀ l ∈ lines, ∃ e, parseNinjaLine l = .entry e := by
  induction lines with
  | nil => intro st out _ l hl; simp at hl
  | cons l0 rest ih =>
    intro st out hdone l hl
    rcases hp : parseNinjaLine l0 with _ | _ | e
    · simp [scanLoop, hp] at hdone
    · simp [scanLoop, hp] at hdone
    · rcases List.mem_cons.mp hl with rfl | hl2
      · exact ⟨e, hp⟩
      · simp only [scanLoop, hp] at hdone
        exact ih _ out hdone l hl2

/-- Invariant of the accumulation state `(entries, prevEnd)`: `prevEnd`
bounds every accumulated entry's `End`, and (once any entry is retained) is
attained by one of them — i.e. `prevEnd` is the running maximum `End` among
the entries accepted so far. -/
theorem accum_inv (es : List NinjaLogEntry) :
    ∀ st : List NinjaLogEntry × Int,
      (∀ x ∈ st.1, x.End ≤ st.2) → (st.1 ≠ [] → ∃ x ∈ st.1, x.End = st.2) →
      (∀ x ∈ (es.foldl accumStep st).1, x.End ≤ (es.foldl accumStep st).2) ∧
      ((es.foldl accumStep st).1 ≠ [] →
        ∃ x ∈ (es.foldl accumStep st).1, x.End = (es.foldl accumStep st).2) := by
  induction es with
  | nil => intro st h1 h2; exact ⟨h1, h2⟩
  | cons e rest ih =>
    intro st h1 h2
    rw [List.foldl_cons]
    apply ih
    · rcases st with ⟨acc, p⟩
      by_cases hlt : e.End < p
      · simp [accumStep, hlt]
      · simp only [accumStep, if_neg hlt]
        intro x hx
        rcases List.mem_append.mp hx with hx1 | hx2
        · exact le_trans (h1 x hx1) (not_lt.mp hlt)
        · simp only [List.mem_singleton] at hx2
          subst hx2
          exact le_refl _
    · rcases st with ⟨acc, p⟩
      intro _
      by_cases hlt : e.End < p
      · exact ⟨e, by simp [accumStep, hlt]⟩
      · exact ⟨e, by simp [accumStep, hlt]⟩

/-- The retained entries are always a contiguous suffix of the entries read
so far. -/
theorem accum_suffix (es : List NinjaLogEntry) :
    ∀ st : List NinjaLogEntry × Int, (es.foldl accumStep st).1 <:+ st.1 ++ es := by
  induction es with
  | nil => intro st; rw [List.foldl_nil, List.append_nil]
  | cons e rest ih =>
    intro st
    rw [List.foldl_cons]
    rcases st with ⟨acc, p⟩
    by_cases hlt : e.End < p
    · have hstep : accumStep (acc, p) e = ([e], e.End) := by simp [accumStep, hlt]
      rw [hstep]
      refine (ih ([e], e.End)).trans ?_
      exact List.suffix_append acc (e :: rest)
    · have hstep : accumStep (acc, p) e = (acc ++ [e], e.End) := by simp [accumStep, hlt]
      rw [hstep]
      have h := ih (acc ++ [e], e.End)
      simpa [List.append_assoc] using h

/-! ### Arithmetic lemmas about event construction -/

/-- When nothing overflows (`0 ≤ Begin ≤ End ≤ 2^53`, origin `≤ 2^63` µs),
the emitted event's fields are the plain values the spec describes. -/
theorem mkEvent_plain (offset : Nat) (tid : Nat) (e : NinjaLogEntry)
    (hoff : offset ≤ 2 ^ 63) (hb : 0 ≤ e.Begin) (hbe : e.Begin ≤ e.End)
    (hend : e.End ≤ 2 ^ 53) :
    mkEvent offset tid e =
      ⟨e.Name, "X", offset + e.Begin.toNat * 1000,
        (e.End - e.Begin).toNat * 1000, 1, tid⟩ := by
  have h1 : toU64 e.Begin = e.Begin.toNat := by unfold toU64; omega
  have h2 : toU64 (int64Sub e.End e.Begin) = (e.End - e.Begin).toNat := by
    unfold toU64 int64Sub; omega
  have hB : e.Begin.toNat ≤ 2 ^ 53 := by omega
  have hD : (e.End - e.Begin).toNat ≤ 2 ^ 53 := by omega
  unfold mkEvent U64
  rw [h1, h2]
  simp only [ViewerEvent.mk.injEq]
  exact ⟨trivial, trivial, by omega, by omega, trivial, trivial⟩

/-- All branches of the read stage log something other than the
"not modified" skip message. -/
theorem importScanned_no_notModified (offset : Nat) (lines : List (List Char)) :
    LogMsg.notModified ∉ (importScanned offset lines).logs := by
  rcases hsc : scanContent lines with _ | a | out
  · rw [importScanned, hsc]; simp
  · rcases a with h | h <;> (rw [importScanned, hsc]; simp)
  · rw [importScanned, hsc]; simp

/-- Either the import emits no events at all, or the log was actually read:
it had the exact header line and the whole scan loop completed. -/
theorem import_events_cases (statModTimeNs : Option Int) (openOk : Bool)
    (content : String) (startOffsetNs : Int) :
    (importNinjaLog statModTimeNs openOk content startOffsetNs).events = [] ∨
    ∃ hd rest, goScanLines content = hd :: rest ∧ hd = "# ninja log v5".data ∧
      ∃ out, scanLoop rest ([], 0) = .done out := by
  rcases statModTimeNs with _ | mt
  · left; rfl
  · by_cases hmt : mt < startOffsetNs
    · left; simp [importNinjaLog, hmt]
    · rcases openOk with _ | _
      · left; simp [importNinjaLog, hmt]
      · rcases hl : goScanLines content with _ | ⟨hd, rest⟩
        · left; simp [importNinjaLog, hmt, importScanned, hl, scanContent,
            sortEntries, emitLoop]
        · by_cases hhdr : hd = "# ninja log v5".data
          · rcases hsc : scanLoop rest ([], 0) with _ | a | out
            · left
              simp [importNinjaLog, hmt, importScanned, hl, scanContent, hhdr, hsc]
            · left
              rcases a with h | h <;>
                simp [importNinjaLog, hmt, importScanned, hl, scanContent, hhdr, hsc]
            · right; exact ⟨hd, rest, rfl, hhdr, out, hsc⟩
          · left
            simp [importNinjaLog, hmt, importScanned, hl, scanContent, hhdr]

/-! ### Claim theorems -/

/-- C1: the claim says `ImportNinjaLog` returns normally on every input, in
particular on data lines with fewer than two or fewer than four
tab-separated fields. The code violates this: `fields[1]` / `fields[3]` are
indexed without a length check, so a data line whose accessed leading
field(s) parse as integers but which has fewer than two (resp. four) fields
panics with an index-out-of-range runtime error. This theorem evaluates the
model at such failing inputs: a three-field line and a one-field line both
make the import panic (emitting zero events) instead of returning. -/
theorem importNinjaLog_panics_on_short_data_line :
    importNinjaLog (some 0) true "# ninja log v5\n0\t1\tx" 0 = ⟨[], [], true⟩ ∧
    importNinjaLog (some 0) true "# ninja log v5\n7" 0 = ⟨[], [], true⟩ ∧
    importNinjaLog (some 0) true "# ninja log v5\nnotanumber" 0 =
      ⟨[], [.unableToParse "notanumber"], false⟩ := by
  decide

/-- C2: parsing is all-or-nothing — if the first line is not the exact
version header, or any data line has a non-integer offset field, the import
emits zero events; a log restart only discards the pre-restart entries, and
the import still emits events for the retained tail (concrete instance: a
restart after entry "a" leaves exactly the events for "b" and "c"). -/
theorem importNinjaLog_all_or_nothing (statModTimeNs : Option Int)
    (openOk : Bool) (content : String) (startOffsetNs : Int) :
    ((goScanLines content).head? ≠ some "# ninja log v5".data →
      (importNinjaLog statModTimeNs openOk content startOffsetNs).events = []) ∧
    ((∃ l ∈ (goScanLines content).tail, parseNinjaLine l = .badInt) →
      (importNinjaLog statModTimeNs openOk content startOffsetNs).events = []) ∧
    (importNinjaLog (some 0) true
        "# ninja log v5\n5\t10\t0\ta\n0\t5\t0\tb\n6\t7\t0\tc" 0).events.map
      (fun ev => ev.Name) = ["b", "c"] := by
  refine ⟨?_, ?_, by decide⟩
  · intro hhd
    rcases import_events_cases statModTimeNs openOk content startOffsetNs with
      h | ⟨hd, rest, hEq, hhdr, _⟩
    · exact h
    · exact absurd (by rw [hEq, hhdr]; rfl) hhd
  · rintro ⟨l, hl, hbad⟩
    rcases import_events_cases statModTimeNs openOk content startOffsetNs with
      h | ⟨hd, rest, hEq, hhdr, out, hsc⟩
    · exact h
    · rw [hEq] at hl
      obtain ⟨e2, he2⟩ := scanLoop_done_parses rest ([], 0) out hsc l hl
      rw [he2] at hbad
      exact absurd hbad (by simp)

/-- C3: for every parsed log, the greedy lane scheduler never assigns two
intervals with overlapping half-open `[Begin, End)` ranges to the same lane:
any two lane assignments with equal lane id have disjoint source intervals,
and the emitted events are exactly those assignments rendered by `mkEvent`
(so events with equal `Tid` come from disjoint intervals). -/
theorem laneAssign_no_overlap_same_lane (entries : List NinjaLogEntry)
    (offset : Nat) :
    (laneAssign (sortEntries entries) []).Pairwise
      (fun p q => p.1 = q.1 →
        ∀ x : Int, ¬(p.2.Begin ≤ x ∧ x < p.2.End ∧ q.2.Begin ≤ x ∧ x < q.2.End)) ∧
    emitLoop offset (sortEntries entries) [] =
      (laneAssign (sortEntries entries) []).map fun p => mkEvent offset p.1 p.2 := by
  refine ⟨?_, emitLoop_eq_map offset _ []⟩
  have h := (laneAssign_inv (sortEntries entries) [] (sortEntries_sorted entries)).1
  exact h.imp fun hpq hEq x hx => by have h2 := hpq hEq; omega

/-- C4: one scheduling step assigns the interval to the lowest-numbered
existing lane whose recorded end is `≤` the interval's begin (updating that
lane's recorded end to the interval's end via `set`); if every existing lane
is still busy, a new lane with id equal to the current lane count is
appended; in either case the chosen lane's recorded end becomes the
interval's end. The loop applies this step to each entry, and the entries
are processed in ascending `Begin` order (the sort's postcondition). -/
theorem assignLane_spec (cpus : List Int) (b e : Int) :
    (∀ i, i < cpus.length → cpus.getD i 0 ≤ b →
        (∀ j, j < i → b < cpus.getD j 0) →
        assignLane cpus b e = (i, cpus.set i e)) ∧
    ((∀ j, j < cpus.length → b < cpus.getD j 0) →
        assignLane cpus b e = (cpus.length, cpus ++ [e])) ∧
    (assignLane cpus b e).2.getD (assignLane cpus b e).1 0 = e ∧
    (∀ (e2 : NinjaLogEntry) (rest : List NinjaLogEntry) (cpus2 : List Int),
        laneAssign (e2 :: rest) cpus2 =
          ((assignLane cpus2 e2.Begin e2.End).1, e2) ::
            laneAssign rest (assignLane cpus2 e2.Begin e2.End).2) ∧
    (∀ es : List NinjaLogEntry,
        (sortEntries es).Pairwise (fun a a2 => a.Begin ≤ a2.Begin)) := by
  refine ⟨?_, ?_, ?_, ?_, sortEntries_sorted⟩
  · intro i hi hfree hmin
    rw [assignLane, findFreeLane_some_of b cpus i hi hfree hmin]
  · intro hbusy
    rw [assignLane, findFreeLane_none_of b cpus hbusy]
  · exact (assignLane_state cpus b e _ _ rfl).2.2.1
  · intro e2 rest cpus2
    simp [laneAssign]

theorem assignLane_spec_witness :
    assignLane [3, 10] 5 7 = (0, [7, 10]) ∧
    assignLane [3, 10] 2 9 = (2, [3, 10, 9]) :=
  ⟨(assignLane_spec [3, 10] 5 7).1 0 (by decide) (by decide)
      (fun j hj => absurd hj (Nat.not_lt_zero j)),
   (assignLane_spec [3, 10] 2 9).2.1 (by decide)⟩

/-- C5: whenever a newly read entry's `End` is below the running maximum
`End` among the entries accumulated so far (equivalently: below some
accumulated entry's `End`), the whole accumulation is discarded and restarts
from the current entry alone; without such a regression the entry is simply
appended; consequently the retained entries are always a contiguous suffix
of the entries read (after several regressions: the part from the last
regression point onward). The last conjunct ties the accumulation step to
the scan loop on raw lines. -/
theorem accumStep_restart_semantics :
    (∀ (es : List NinjaLogEntry) (e : NinjaLogEntry),
        (∃ x ∈ (es.foldl accumStep ([], 0)).1, e.End < x.End) →
        ((es ++ [e]).foldl accumStep ([], 0)).1 = [e]) ∧
    (∀ (es : List NinjaLogEntry) (e : NinjaLogEntry),
        (∀ x ∈ (es.foldl accumStep ([], 0)).1, x.End ≤ e.End) →
        ((es ++ [e]).foldl accumStep ([], 0)).1 =
          (es.foldl accumStep ([], 0)).1 ++ [e]) ∧
    (∀ es : List NinjaLogEntry, (es.foldl accumStep ([], 0)).1 <:+ es) ∧
    (∀ (l : List Char) (rest : List (List Char))
        (st : List NinjaLogEntry × Int) (e : NinjaLogEntry),
        parseNinjaLine l = .entry e →
        scanLoop (l :: rest) st = scanLoop rest (accumStep st e)) := by
  refine ⟨?_, ?_, ?_, ?_⟩
  · intro es e ⟨x, hx, hlt⟩
    rw [List.foldl_append]
    have hmax := (accum_inv es ([], 0) (by simp) (by simp)).1 x hx
    rcases hst : es.foldl accumStep ([], 0) with ⟨acc, p⟩
    rw [hst] at hmax
    have hreset : e.End < p := lt_of_lt_of_le hlt hmax
    simp [accumStep, hreset]
  · intro es e hle
    rw [List.foldl_append]
    rcases hst : es.foldl accumStep ([], 0) with ⟨acc, p⟩
    by_cases hacc : acc = []
    · subst hacc
      by_cases hlt : e.End < p <;> simp [accumStep, hlt]
    · obtain ⟨x, hx, hxEnd⟩ :=
        (accum_inv es ([], 0) (by simp) (by simp)).2 (by rw [hst]; exact hacc)
      rw [hst] at hx hxEnd
      have hxe : x.End ≤ e.End := hle x (by rw [hst]; exact hx)
      have hple : p ≤ e.End := by
        have hxp : x.End = p := hxEnd
        omega
      simp [accumStep, not_lt.mpr hple]
  · intro es
    simpa using accum_suffix es ([], 0)
  · intro l rest st e hp
    simp [scanLoop, hp]

theorem accumStep_restart_semantics_witness :
    (∃ x ∈ (([⟨"a", 0, 10⟩] : List NinjaLogEntry).foldl accumStep ([], 0)).1,
        (⟨"b", 0, 5⟩ : NinjaLogEntry).End < x.End) ∧
    (([⟨"a", 0, 10⟩, ⟨"b", 0, 5⟩] : List NinjaLogEntry).foldl
        accumStep ([], 0)).1 = [⟨"b", 0, 5⟩] :=
  ⟨by decide, accumStep_restart_semantics.1 [⟨"a", 0, 10⟩] ⟨"b", 0, 5⟩ (by decide)⟩

/-- C6: on the concrete valid log with entries `(0,10,"a")`, `(5,15,"b")`,
`(20,25,"c")` and origin `T` µs (no overflow), the import emits exactly the
three events "a" on lane 0 at `T+0` for 10000 µs, "b" on lane 1 at `T+5000`
for 10000 µs, and "c" back on lane 0 at `T+20000` for 5000 µs. -/
theorem importScanned_concrete_scenario (T : Nat) (hT : T ≤ 2 ^ 63) :
    (importScanned T (goScanLines
        "# ninja log v5\n0\t10\t0\ta\n5\t15\t0\tb\n20\t25\t0\tc")).events =
      [⟨"a", "X", T + 0, 10000, 1, 0⟩,
       ⟨"b", "X", T + 5000, 10000, 1, 1⟩,
       ⟨"c", "X", T + 20000, 5000, 1, 0⟩] := by
  have h : (importScanned T (goScanLines
      "# ninja log v5\n0\t10\t0\ta\n5\t15\t0\tb\n20\t25\t0\tc")).events =
      [mkEvent T 0 ⟨"a", 0, 10⟩, mkEvent T 1 ⟨"b", 5, 15⟩,
       mkEvent T 0 ⟨"c", 20, 25⟩] := rfl
  rw [h, mkEvent_plain T 0 ⟨"a", 0, 10⟩ hT (by decide) (by decide) (by decide),
    mkEvent_plain T 1 ⟨"b", 5, 15⟩ hT (by decide) (by decide) (by decide),
    mkEvent_plain T 0 ⟨"c", 20, 25⟩ hT (by decide) (by decide) (by decide)]
  simp only [List.cons.injEq, ViewerEvent.mk.injEq]
  norm_num
  omega

theorem importScanned_concrete_scenario_witness :
    (12345 : Nat) ≤ 2 ^ 63 ∧
    (importScanned 12345 (goScanLines
        "# ninja log v5\n0\t10\t0\ta\n5\t15\t0\tb\n20\t25\t0\tc")).events =
      [⟨"a", "X", 12345 + 0, 10000, 1, 0⟩,
       ⟨"b", "X", 12345 + 5000, 10000, 1, 1⟩,
       ⟨"c", "X", 12345 + 20000, 5000, 1, 0⟩] :=
  ⟨by norm_num, importScanned_concrete_scenario 12345 (by norm_num)⟩

/-- C7: in the overflow-free range, every emitted event has absolute start
`offset + Begin·1000`, duration `(End − Begin)·1000`, the fixed `Pid = 1`,
and `Tid` equal to the assigned lane id; there is exactly one event per
retained entry (the assignment pairs project back onto the sorted entries),
emitted in ascending `Begin` order. -/
theorem emitLoop_event_fields (entries : List NinjaLogEntry) (offset : Nat)
    (hoff : offset ≤ 2 ^ 63)
    (hent : ∀ e ∈ entries, 0 ≤ e.Begin ∧ e.Begin ≤ e.End ∧ e.End ≤ 2 ^ 53) :
    emitLoop offset (sortEntries entries) [] =
      (laneAssign (sortEntries entries) []).map (fun p =>
        ⟨p.2.Name, "X", offset + p.2.Begin.toNat * 1000,
          (p.2.End - p.2.Begin).toNat * 1000, 1, p.1⟩) ∧
    (laneAssign (sortEntries entries) []).map Prod.snd = sortEntries entries ∧
    (sortEntries entries).Perm entries ∧
    (sortEntries entries).Pairwise (fun a b => a.Begin ≤ b.Begin) := by
  refine ⟨?_, laneAssign_map_snd _ [], sortEntries_perm entries,
    sortEntries_sorted entries⟩
  rw [emitLoop_eq_map]
  apply List.map_congr_left
  intro p hp
  have hmem : p.2 ∈ entries := by
    have h1 : p.2 ∈ sortEntries entries := by
      rw [← laneAssign_map_snd (sortEntries entries) []]
      exact List.mem_map_of_mem Prod.snd hp
    exact (sortEntries_perm entries).mem_iff.mp h1
  obtain ⟨h1, h2, h3⟩ := hent p.2 hmem
  exact mkEvent_plain offset p.1 p.2 hoff h1 h2 h3

theorem emitLoop_event_fields_witness :
    (∀ e ∈ ([⟨"a", 0, 10⟩] : List NinjaLogEntry),
        0 ≤ e.Begin ∧ e.Begin ≤ e.End ∧ e.End ≤ 2 ^ 53) ∧
    emitLoop 0 (sortEntries [⟨"a", 0, 10⟩]) [] =
      (laneAssign (sortEntries [⟨"a", 0, 10⟩]) []).map (fun p =>
        ⟨p.2.Name, "X", 0 + p.2.Begin.toNat * 1000,
          (p.2.End - p.2.Begin).toNat * 1000, 1, p.1⟩) :=
  ⟨by decide,
   (emitLoop_event_fields [⟨"a", 0, 10⟩] 0 (by norm_num) (by decide)).1⟩

/-- C8 (counterexample): the claim says an empty file (no lines) aborts with
zero events and a logged diagnostic. On the empty file the import does emit
zero events, but it logs nothing and completes normally — the header is
never even checked — so the "diagnostic message logged" part is false. -/
theorem importNinjaLog_empty_file_no_diagnostic :
    (importNinjaLog (some 0) true "" 0).events = [] ∧
    (importNinjaLog (some 0) true "" 0).logs = [] ∧
    (importNinjaLog (some 0) true "" 0).panicked = false := by decide

/-- C8 (amended): for every file that is actually read (fresh enough, opens
fine) and has at least one line, a first line different from the exact
header `"# ninja log v5"` aborts the import with zero events and exactly the
unknown-header diagnostic; an empty file also produces zero events but
returns normally without logging any diagnostic. -/
theorem importNinjaLog_bad_header_aborts (mt : Int) (content : String)
    (startOffsetNs : Int) (hmt : ¬ mt < startOffsetNs) :
    (∀ hd rest, goScanLines content = hd :: rest →
        hd ≠ "# ninja log v5".data →
        importNinjaLog (some mt) true content startOffsetNs =
          ⟨[], [.unknownHeader ⟨hd⟩], false⟩) ∧
    (goScanLines content = [] →
        importNinjaLog (some mt) true content startOffsetNs =
          ⟨[], [], false⟩) := by
  constructor
  · intro hd rest hEq hne
    simp [importNinjaLog, hmt, importScanned, hEq, scanContent, hne]
  · intro hEq
    simp [importNinjaLog, hmt, importScanned, hEq, scanContent, sortEntries,
      emitLoop]

theorem importNinjaLog_bad_header_aborts_witness :
    ¬ (0 : Int) < 0 ∧
    importNinjaLog (some 0) true "bogus" 0 =
      ⟨[], [.unknownHeader "bogus"], false⟩ :=
  ⟨by omega,
   (importNinjaLog_bad_header_aborts 0 "bogus" 0 (by omega)).1
     "bogus".data [] (by decide) (by decide)⟩

/-- C9: a log whose modification time is strictly before the supplied origin
is skipped as a normal outcome: the import returns with zero events, no
panic, and only the verbose "not modified" message; when the modification
time is at or after the origin the import proceeds to read the file and the
"not modified" skip can no longer occur. -/
theorem importNinjaLog_stale_skipped (mt startOffsetNs : Int) (openOk : Bool)
    (content : String) :
    (mt < startOffsetNs →
        importNinjaLog (some mt) openOk content startOffsetNs =
          ⟨[], [.notModified], false⟩) ∧
    (¬ mt < startOffsetNs →
        LogMsg.notModified ∉
          (importNinjaLog (some mt) openOk content startOffsetNs).logs) := by
  constructor
  · intro h
    simp [importNinjaLog, h]
  · intro h
    rcases openOk with _ | _
    · simp [importNinjaLog, h]
    · simpa [importNinjaLog, h] using
        importScanned_no_notModified (toU64 startOffsetNs / 1000)
          (goScanLines content)

theorem importNinjaLog_stale_skipped_witness :
    (0 : Int) < 1 ∧
    importNinjaLog (some 0) true "whatever" 1 = ⟨[], [.notModified], false⟩ :=
  ⟨by omega, (importNinjaLog_stale_skipped 0 1 true "whatever").1 (by omega)⟩

/-- C10: for an entry with `End < Begin` (both in the `int64` range Atoi can
produce), the emitted duration is `(End − Begin)·1000` wrapped modulo
`2^64` — the unsigned-integer underflow value, which for any realistic
regression size (`Begin − End ≤ 2^51` ms) exceeds `2^63`, an enormous
positive number rather than a negative duration. -/
theorem mkEvent_dur_underflow (e : NinjaLogEntry) (offset tid : Nat)
    (hb1 : -(2 : Int) ^ 63 ≤ e.Begin) (hb2 : e.Begin < 2 ^ 63)
    (he1 : -(2 : Int) ^ 63 ≤ e.End) (he2 : e.End < 2 ^ 63)
    (hlt : e.End < e.Begin) :
    (mkEvent offset tid e).Dur =
      (((e.End - e.Begin) * 1000) % (2 : Int) ^ 64).toNat ∧
    (e.Begin - e.End ≤ 2 ^ 51 → 2 ^ 63 < (mkEvent offset tid e).Dur) := by
  have hN : toU64 (int64Sub e.End e.Begin) = (e.End - e.Begin + 2 ^ 64).toNat := by
    unfold toU64 int64Sub
    omega
  have hcast : ((e.End - e.Begin + 2 ^ 64).toNat : Int) = e.End - e.Begin + 2 ^ 64 :=
    Int.toNat_of_nonneg (by omega)
  constructor
  · show (toU64 (int64Sub e.End e.Begin) * 1000) % U64 = _
    rw [hN]
    have h2 : (((e.End - e.Begin + 2 ^ 64).toNat * 1000 : Nat) : Int) =
        (e.End - e.Begin) * 1000 + 1000 * 2 ^ 64 := by
      rw [Nat.cast_mul, hcast]
      push_cast
      ring
    unfold U64
    omega
  · intro hsmall
    show 2 ^ 63 < (toU64 (int64Sub e.End e.Begin) * 1000) % U64
    rw [hN]
    have hN1 : 2 ^ 64 - 2 ^ 51 ≤ (e.End - e.Begin + 2 ^ 64).toNat := by omega
    have hN2 : (e.End - e.Begin + 2 ^ 64).toNat ≤ 2 ^ 64 - 1 := by omega
    have hlo : 999 * 2 ^ 64 ≤ (e.End - e.Begin + 2 ^ 64).toNat * 1000 := by omega
    have hhi : (e.End - e.Begin + 2 ^ 64).toNat * 1000 < 1000 * 2 ^ 64 := by omega
    have hq : (e.End - e.Begin + 2 ^ 64).toNat * 1000 / 2 ^ 64 = 999 := by omega
    unfold U64
    omega

theorem mkEvent_dur_underflow_witness :
    (3 : Int) < 10 ∧
    (mkEvent 0 0 ⟨"x", 10, 3⟩).Dur =
      (((3 - 10 : Int) * 1000) % (2 : Int) ^ 64).toNat :=
  ⟨by norm_num,
   (mkEvent_dur_underflow ⟨"x", 10, 3⟩ 0 0 (by norm_num) (by norm_num)
     (by norm_num) (by norm_num) (by norm_num)).1⟩

theorem importNinjaLog_all_or_nothing_witness :
    (goScanLines "oops").head? ≠ some "# ninja log v5".data ∧
    (importNinjaLog (some 0) true "oops" 0).events = [] :=
  ⟨by decide, (importNinjaLog_all_or_nothing (some 0) true "oops" 0).1 (by decide)⟩

end NinjaImport
